import Mathlib

/-!
Shallow embedding of the mention-span utilities of
`webapp/channels/src/components/suggestion/mention_utils` (src/unnamed/part_002).

Buffers (JS strings) are modelled as `List Char`; all characters involved are
in the BMP, so JS UTF-16 code units coincide with characters.  Offsets are
`Nat` (the claims only quantify over non-negative positions; the source's
defensive `cursorPosition < 0` guards are kept where they are expressible).

The mention regex of the source is
  `const MENTION_REGEX = /@([a-z0-9.\-_]+)\b/gi;`
Its exec-loop semantics, spelled out: at each position of the (cleaned) text,
a match requires a literal `@`; the greedy `+` first consumes the maximal run
of characters from the class `[a-zA-Z0-9.\-_]` (the `i` flag adds `A-Z`), and
then the trailing `\b` is checked.  JS word characters are `[a-zA-Z0-9_]`,
which is a subset of the class, so the character following the greedy run is
never a word character; hence `\b` holds at a candidate end position iff the
last consumed character is a word character.  Backtracking therefore trims
trailing `.`/`-` characters (the non-word members of the class) until the
match ends in a word character; if no such non-empty prefix of the run
exists, there is no match at this `@` and the engine moves on.  After a
successful match, `lastIndex` is the match end, so scanning resumes there.
`scanClean` below implements exactly this.
-/

/-- U+200B (zero width space) or U+200C (zero width non-joiner); these are the
characters removed by `text.replace(/[\u200B\u200C]/g, '')` in
`getMentionRanges`. -/
def isZeroWidthChar (c : Char) : Bool :=
  c = '\u200B' || c = '\u200C'

/-- The cleaned text used for matching: the source's
`text.replace(/[\u200B\u200C]/g, '')`. -/
def cleanText (text : List Char) : List Char :=
  text.filter (fun c => !isZeroWidthChar c)

/-- Membership in the regex character class `[a-z0-9.\-_]` under the `i` flag,
i.e. `[a-zA-Z0-9.\-_]`. -/
def isMentionBodyChar (c : Char) : Bool :=
  ('a' ≤ c && c ≤ 'z') || ('A' ≤ c && c ≤ 'Z') || ('0' ≤ c && c ≤ '9') ||
    c = '.' || c = '-' || c = '_'

/-- JS regex word characters `[a-zA-Z0-9_]`, the alphabet relevant to `\b`. -/
def isWordChar (c : Char) : Bool :=
  ('a' ≤ c && c ≤ 'z') || ('A' ≤ c && c ≤ 'Z') || ('0' ≤ c && c ≤ '9') || c = '_'

/-- Trim the trailing non-word characters of the greedy run: the effect of the
regex engine backtracking out of `([a-z0-9.\-_]+)` until `\b` holds. -/
def dropTrailingNonWord (l : List Char) : List Char :=
  (l.reverse.dropWhile (fun c => !isWordChar c)).reverse

/-- The source's `MentionRange` interface.  The field `end` is a Lean keyword
and is rendered `stop`. -/
structure MentionRange where
  start : Nat
  stop : Nat
  text : List Char
deriving DecidableEq

/-- The `while ((match = MENTION_REGEX.exec(cleanText)) !== null)` loop of
`getMentionRanges`, producing spans in coordinates of the cleaned text.
`i` is the absolute offset of the head of `l` in the cleaned text.  The
`fuel` argument only bounds the recursion depth (each step consumes at least
one character, so any `fuel ≥ l.length` gives the loop's full behavior); it
makes the definition structurally recursive, hence kernel-reducible. -/
def scanCleanAux : Nat → List Char → Nat → List MentionRange
  | 0, _, _ => []
  | _ + 1, [], _ => []
  | fuel + 1, c :: rest, i =>
    if c = '@' then
      let run := rest.takeWhile isMentionBodyChar
      let body := dropTrailingNonWord run
      if body = [] then
        scanCleanAux fuel rest (i + 1)
      else
        ⟨i, i + 1 + body.length, '@' :: body⟩ ::
          scanCleanAux fuel (rest.drop body.length) (i + 1 + body.length)
    else
      scanCleanAux fuel rest (i + 1)

/-- The regex loop at full fuel. -/
def scanClean (l : List Char) (i : Nat) : List MentionRange :=
  scanCleanAux l.length l i

/-- The source's `mapCleanToOriginalPosition(originalText, cleanPosition)`:
walk the original text, skipping zero-width characters, until `cleanPosition`
clean characters have been consumed (or the text is exhausted); return how far
the walk got in the original text. -/
def mapCleanToOriginalPosition : List Char → Nat → Nat
  | [], _ => 0
  | c :: rest, n =>
    if n = 0 then 0
    else if isZeroWidthChar c then 1 + mapCleanToOriginalPosition rest n
    else 1 + mapCleanToOriginalPosition rest (n - 1)

/-- The source's `getMentionRanges(text)`: guard degenerate input, strip
zero-width characters, run the regex loop on the cleaned copy, and map each
match's clean offsets back to original-buffer offsets. -/
def getMentionRanges (text : List Char) : List MentionRange :=
  if text = [] then []
  else
    (scanClean (cleanText text) 0).map fun r =>
      ⟨mapCleanToOriginalPosition text r.start,
       mapCleanToOriginalPosition text r.stop, r.text⟩

/-- Characters removed by JS `String.prototype.trim` (and matched by the JS
regex `\s`): WhiteSpace and LineTerminator code points.  Note that U+200B and
U+200C are *not* among them. -/
def isJsWhitespaceChar (c : Char) : Bool :=
  c = ' ' || c = '\t' || c = '\n' || c = '\u000B' || c = '\u000C' || c = '\r' ||
    c = '\u00A0' || c = '\u1680' || ('\u2000' ≤ c && c ≤ '\u200A') ||
    c = '\u2028' || c = '\u2029' || c = '\u202F' || c = '\u205F' ||
    c = '\u3000' || c = '\uFEFF'

/-- JS `String.prototype.trim`. -/
def trimJs (l : List Char) : List Char :=
  ((l.dropWhile isJsWhitespaceChar).reverse.dropWhile isJsWhitespaceChar).reverse

/-- The source's `'Backspace' | 'Delete'` union type. -/
inductive DeletionKey where
  | Backspace
  | Delete
deriving DecidableEq

/-- The source's `MentionDeletionResult` interface. -/
structure MentionDeletionResult where
  shouldDelete : Bool
  newPosition : Option Nat
  newText : Option (List Char)
deriving DecidableEq

/-- The `for (const range of mentionRanges)` loop of `handleMentionDeletion`,
with its early returns.  JS `text.substring(0, a) + text.substring(b)` is
`text.take a ++ text.drop b`; `text.charAt(i) === ' '` is
`text[i]? = some ' '` (an out-of-range `charAt` yields `""`, never `" "`);
`afterSpace.trim().length > 0` is `0 < (trimJs afterSpace).length`. -/
def handleMentionDeletionLoop (text : List Char) (cursorPosition : Nat)
    (key : DeletionKey) : List MentionRange → MentionDeletionResult
  | [] => ⟨false, none, none⟩
  | range :: rest =>
    if key = .Backspace ∧ cursorPosition = range.stop then
      ⟨true, some range.start, some (text.take range.start ++ text.drop range.stop)⟩
    else if key = .Backspace ∧ range.stop < cursorPosition ∧
        cursorPosition ≤ range.stop + 1 ∧ text[range.stop]? = some ' ' then
      let afterSpace := text.drop (range.stop + 1)
      if 0 < (trimJs afterSpace).length then
        ⟨false, some cursorPosition, none⟩
      else
        ⟨true, some range.stop, some (text.take range.stop ++ text.drop (range.stop + 1))⟩
    else if key = .Backspace ∧ cursorPosition = range.start then
      ⟨true, some range.start, some (text.take range.start ++ text.drop range.stop)⟩
    else if key = .Delete ∧ cursorPosition = range.start then
      ⟨true, some range.start, some (text.take range.start ++ text.drop range.stop)⟩
    else if key = .Delete ∧ range.start ≤ cursorPosition ∧ cursorPosition < range.stop then
      ⟨false, some range.stop, none⟩
    else if key = .Backspace ∧ range.start < cursorPosition ∧ cursorPosition ≤ range.stop then
      ⟨false, some range.start, none⟩
    else
      handleMentionDeletionLoop text cursorPosition key rest

/-- The source's `handleMentionDeletion(text, cursorPosition, key)`.  The
`cursorPosition < 0` guard is vacuous on `Nat`. -/
def handleMentionDeletion (text : List Char) (cursorPosition : Nat)
    (key : DeletionKey) : MentionDeletionResult :=
  if text = [] then ⟨false, none, none⟩
  else handleMentionDeletionLoop text cursorPosition key (getMentionRanges text)

/-- The source's `MentionInvasionResult` interface. -/
structure MentionInvasionResult where
  willInvade : Bool
  safePosition : Option Nat
deriving DecidableEq

/-- The Home/Ctrl-Left/Cmd-Left loop of `willInvadeMentionArea`:
`targetPosition` is the (constant) `0` of the source; the loop returns on the
first range with `targetPosition < range.end`, else `willInvade: false`. -/
def willInvadeHomeLoop (targetPosition : Nat) : List MentionRange → MentionInvasionResult
  | [] => ⟨false, none⟩
  | range :: rest =>
    if targetPosition < range.stop then ⟨true, some range.stop⟩
    else willInvadeHomeLoop targetPosition rest

/-- The regular-arrow-key loop of `willInvadeMentionArea`.  `nextPosition` is
computed as a JS number, which can be `-1`; it is modelled as `Int`. -/
def willInvadeArrowLoop (currentPosition : Nat) (key : String) (nextPosition : Int) :
    List MentionRange → MentionInvasionResult
  | [] => ⟨false, none⟩
  | range :: rest =>
    if key = "ArrowRight" ∧ currentPosition < range.start ∧
        (range.start : Int) ≤ nextPosition then
      ⟨true, some range.stop⟩
    else if key = "ArrowLeft" ∧ range.stop < currentPosition ∧
        nextPosition = (range.stop : Int) then
      ⟨false, none⟩
    else if key = "ArrowLeft" ∧ currentPosition ≤ range.stop ∧
        range.start < currentPosition ∧ (range.start : Int) ≤ nextPosition then
      ⟨true, some range.start⟩
    else if key = "ArrowLeft" ∧ currentPosition = range.start then
      ⟨false, none⟩
    else
      willInvadeArrowLoop currentPosition key nextPosition rest

/-- The source's `willInvadeMentionArea(text, currentPosition, key, ctrlKey,
metaKey)`.  The Home branch returns whatever its loop produces (it does not
fall through to the arrow branch); the arrow branch falls through to the final
`{ willInvade: false }` when its loop finds nothing. -/
def willInvadeMentionArea (text : List Char) (currentPosition : Nat) (key : String)
    (ctrlKey metaKey : Bool) : MentionInvasionResult :=
  if text = [] then ⟨false, none⟩
  else
    let mentionRanges := getMentionRanges text
    if mentionRanges = [] then ⟨false, none⟩
    else if key = "Home" ∨ (key = "ArrowLeft" ∧ (ctrlKey ∨ metaKey)) then
      willInvadeHomeLoop 0 mentionRanges
    else if key = "ArrowLeft" ∨ key = "ArrowRight" then
      let nextPosition : Int :=
        if key = "ArrowLeft" then (currentPosition : Int) - 1 else (currentPosition : Int) + 1
      willInvadeArrowLoop currentPosition key nextPosition mentionRanges
    else ⟨false, none⟩

/-- The range loop of `preventMentionExpansion`: at the first range whose end
equals the cursor, splice `' ' + newChar` in at the cursor and advance the
cursor by two. -/
def preventMentionExpansionLoop (text : List Char) (cursorPosition : Nat)
    (newChar : List Char) : List MentionRange → List Char × Nat
  | [] => (text, cursorPosition)
  | range :: rest =>
    if cursorPosition = range.stop then
      (text.take cursorPosition ++ ' ' :: newChar ++ text.drop cursorPosition,
       cursorPosition + 2)
    else preventMentionExpansionLoop text cursorPosition newChar rest

/-- The source's `preventMentionExpansion(text, cursorPosition, newChar)`.
The `!newChar` guard (empty string is falsy) is the `newChar = []` test. -/
def preventMentionExpansion (text : List Char) (cursorPosition : Nat)
    (newChar : List Char) : List Char × Nat :=
  if text = [] ∨ newChar = [] then (text, cursorPosition)
  else preventMentionExpansionLoop text cursorPosition newChar (getMentionRanges text)

/-- The range loop of `getSafeCursorPosition` (first containing range wins,
via `break`). -/
def getSafeCursorPositionLoop (targetPosition : Nat) : List MentionRange → Nat
  | [] => targetPosition
  | range :: rest =>
    if range.start ≤ targetPosition ∧ targetPosition < range.stop then range.stop
    else getSafeCursorPositionLoop targetPosition rest

/-- The source's `getSafeCursorPosition(text, targetPosition)`, including the
final `Math.max(0, Math.min(newPosition, text.length))` clamp. -/
def getSafeCursorPosition (text : List Char) (targetPosition : Nat) : Nat :=
  if text = [] then 0
  else max 0 (min (getSafeCursorPositionLoop targetPosition (getMentionRanges text)) text.length)

/-- The separator string `'\u200B\u200C\u200B'` of
`detectAndFixMentionExpansion`'s previous-buffer branch. -/
def expansionSeparators : List Char := ['\u200B', '\u200C', '\u200B']

/-- Inner `for (const prevRange of previousRanges)` loop of
`detectAndFixMentionExpansion`.  JS `currentRange.text.startsWith(prevRange.text)`
is `currentRange.text.take prevRange.text.length = prevRange.text`. -/
def detectExpansionInnerLoop (text : List Char) (currentRange : MentionRange) :
    List MentionRange → Option (List Char)
  | [] => none
  | prevRange :: rest =>
    if prevRange.start = currentRange.start ∧ prevRange.stop < currentRange.stop ∧
        currentRange.text.take prevRange.text.length = prevRange.text then
      let expandedPart := currentRange.text.drop prevRange.text.length
      some (text.take prevRange.stop ++ expansionSeparators ++ expandedPart ++
        text.drop currentRange.stop)
    else detectExpansionInnerLoop text currentRange rest

/-- Outer `for (const currentRange of mentionRanges)` loop of
`detectAndFixMentionExpansion`'s previous-buffer branch. -/
def detectExpansionOuterLoop (text : List Char) (previousRanges : List MentionRange) :
    List MentionRange → Option (List Char)
  | [] => none
  | currentRange :: rest =>
    match detectExpansionInnerLoop text currentRange previousRanges with
    | some t => some t
    | none => detectExpansionOuterLoop text previousRanges rest

/-- The heuristic fallback loop of `detectAndFixMentionExpansion`: a range is
suspicious when its text (minus `@`) matches `/\s/`, matches
`/[^a-z0-9.\-_]/i`, or is longer than 50; `mentionText.match(/^([a-z0-9.\-_]+)/i)`
yields `mentionText.takeWhile isMentionBodyChar` when non-null. -/
def detectSuspiciousLoop (text : List Char) : List MentionRange → Option (List Char)
  | [] => none
  | range :: rest =>
    let mentionText := range.text.drop 1
    let isSuspicious := mentionText.any isJsWhitespaceChar ||
      mentionText.any (fun c => !isMentionBodyChar c) || 50 < mentionText.length
    let usernameMatch := mentionText.takeWhile isMentionBodyChar
    if isSuspicious ∧ usernameMatch ≠ [] ∧ usernameMatch.length < mentionText.length then
      some (text.take range.start ++ '@' :: usernameMatch ++
        '\u200B' :: mentionText.drop usernameMatch.length ++ text.drop range.stop)
    else detectSuspiciousLoop text rest

/-- The source's `detectAndFixMentionExpansion(text, previousText?)`.  The
previous-buffer branch runs only when `previousText` is a non-empty string
(`previousText && typeof previousText === 'string'`); if it returns nothing,
the heuristic fallback runs; if that also returns nothing, `text` is returned
unchanged. -/
def detectAndFixMentionExpansion (text : List Char) (previousText : Option (List Char)) :
    List Char :=
  if text = [] then text
  else
    let mentionRanges := getMentionRanges text
    let sophisticated : Option (List Char) :=
      match previousText with
      | some prev =>
        if prev = [] then none
        else detectExpansionOuterLoop text (getMentionRanges prev) mentionRanges
      | none => none
    match sophisticated with
    | some t => t
    | none =>
      match detectSuspiciousLoop text mentionRanges with
      | some t => t
      | none => text

example : getMentionRanges "hello @user-123 bye".toList =
    [⟨6, 15, "@user-123".toList⟩] := by decide

example : getMentionRanges "@a.".toList = [⟨0, 2, "@a".toList⟩] := by decide

example : getMentionRanges "@al\u200B\u200C\u200Bice2".toList =
    [⟨0, 10, "@alice2".toList⟩] := by decide

example : getMentionRanges "@.-".toList = [] := by decide

example : getMentionRanges "a\u200B@b".toList = [⟨1, 4, "@b".toList⟩] := by decide

/-! ### Helper lemmas -/

/-- Every JS word character is in the mention character class. -/
theorem isMentionBodyChar_of_isWordChar {c : Char} (h : isWordChar c = true) :
    isMentionBodyChar c = true := by
  simp only [isWordChar, Bool.or_eq_true, Bool.and_eq_true, decide_eq_true_eq] at h
  simp only [isMentionBodyChar, Bool.or_eq_true, Bool.and_eq_true, decide_eq_true_eq]
  tauto

/-- The map `mapCleanToOriginalPosition` never exceeds the original length. -/
theorem mapClean_le_length (text : List Char) :
    ∀ n, mapCleanToOriginalPosition text n ≤ text.length := by
  induction text with
  | nil => intro n; simp [mapCleanToOriginalPosition]
  | cons c rest ih =>
    intro n
    simp only [mapCleanToOriginalPosition, List.length_cons]
    split
    · omega
    · split
      · have := ih n; omega
      · have := ih (n - 1); omega

/-- The map `mapCleanToOriginalPosition` at clean position 0 is 0. -/
theorem mapClean_zero (text : List Char) : mapCleanToOriginalPosition text 0 = 0 := by
  cases text <;> simp [mapCleanToOriginalPosition]

theorem mapClean_cons_zw {c : Char} {rest : List Char} {n : Nat}
    (hz : isZeroWidthChar c = true) (hn : n ≠ 0) :
    mapCleanToOriginalPosition (c :: rest) n = 1 + mapCleanToOriginalPosition rest n := by
  simp [mapCleanToOriginalPosition, hn, hz]

theorem mapClean_cons_reg {c : Char} {rest : List Char} {n : Nat}
    (hz : isZeroWidthChar c = false) (hn : n ≠ 0) :
    mapCleanToOriginalPosition (c :: rest) n =
      1 + mapCleanToOriginalPosition rest (n - 1) := by
  simp [mapCleanToOriginalPosition, hn, hz]

theorem cleanText_cons_zw {c : Char} {rest : List Char} (hz : isZeroWidthChar c = true) :
    cleanText (c :: rest) = cleanText rest := by
  simp [cleanText, hz]

theorem cleanText_cons_reg {c : Char} {rest : List Char} (hz : isZeroWidthChar c = false) :
    cleanText (c :: rest) = c :: cleanText rest := by
  simp [cleanText, hz]

/-- Walking `m - n` further clean characters advances the original position by
at least `m - n`, as long as `m` clean characters exist. -/
theorem mapClean_gap (text : List Char) :
    ∀ n m, n ≤ m → m ≤ (cleanText text).length →
      mapCleanToOriginalPosition text n + (m - n) ≤ mapCleanToOriginalPosition text m := by
  induction text with
  | nil =>
    intro n m h1 h2
    simp [cleanText] at h2
    simp [mapCleanToOriginalPosition]
    omega
  | cons c rest ih =>
    intro n m h1 h2
    rcases Nat.eq_zero_or_pos m with hm | hm
    · have hn : n = 0 := by omega
      subst hm; subst hn; simp
    · by_cases hz : isZeroWidthChar c = true
      · rw [cleanText_cons_zw hz] at h2
        rw [@mapClean_cons_zw c rest m hz (by omega)]
        rcases Nat.eq_zero_or_pos n with hn | hn
        · subst hn
          rw [mapClean_zero]
          have := ih 0 m (by omega) h2
          rw [mapClean_zero] at this
          omega
        · rw [@mapClean_cons_zw c rest n hz (by omega)]
          have := ih n m h1 h2
          omega
      · rw [Bool.not_eq_true] at hz
        rw [cleanText_cons_reg hz, List.length_cons] at h2
        rw [@mapClean_cons_reg c rest m hz (by omega)]
        rcases Nat.eq_zero_or_pos n with hn | hn
        · subst hn
          rw [mapClean_zero]
          have := ih 0 (m - 1) (by omega) (by omega)
          rw [mapClean_zero] at this
          omega
        · rw [@mapClean_cons_reg c rest n hz (by omega)]
          have := ih (n - 1) (m - 1) (by omega) (by omega)
          omega

/-- The kept part `dropTrailingNonWord l` is a prefix of `l` whose complement consists of
non-word characters only. -/
theorem dropTrailingNonWord_spec (l : List Char) :
    ∃ suffix, l = dropTrailingNonWord l ++ suffix ∧
      ∀ c ∈ suffix, isWordChar c = false := by
  refine ⟨(l.reverse.takeWhile (fun c => !isWordChar c)).reverse, ?_, ?_⟩
  · conv_lhs => rw [← l.reverse_reverse,
      ← List.takeWhile_append_dropWhile (fun c => !isWordChar c) l.reverse]
    rw [List.reverse_append]
    rfl
  · intro c hc
    rw [List.mem_reverse] at hc
    have := List.mem_takeWhile_imp hc
    simpa using this

/-- The character just past the full `takeWhile` run fails the predicate. -/
theorem takeWhile_boundary {p : Char → Bool} :
    ∀ (l : List Char) (c : Char), l[(l.takeWhile p).length]? = some c → p c = false := by
  intro l
  induction l with
  | nil => intro c h; simp at h
  | cons a rest ih =>
    intro c h
    by_cases hp : p a = true
    · rw [List.takeWhile_cons_of_pos hp, List.length_cons] at h
      rw [List.getElem?_cons_succ] at h
      exact ih c h
    · rw [List.takeWhile_cons_of_neg hp] at h
      simp only [List.length_nil, List.getElem?_cons_zero, Option.some.injEq] at h
      subst h
      exact Bool.eq_false_iff.mpr hp

/-- JS `trim` leaves something iff some character is not whitespace. -/
theorem trimJs_length_pos_iff (l : List Char) :
    0 < (trimJs l).length ↔ (l.any fun c => !isJsWhitespaceChar c) = true := by
  have h1 : trimJs l = [] ↔ ∀ x ∈ l, isJsWhitespaceChar x = true := by
    unfold trimJs
    rw [List.reverse_eq_nil_iff, List.dropWhile_eq_nil_iff]
    constructor
    · intro h x hx
      rw [← List.takeWhile_append_dropWhile isJsWhitespaceChar l] at hx
      rcases List.mem_append.mp hx with h2 | h2
      · exact List.mem_takeWhile_imp h2
      · exact h x (List.mem_reverse.mpr h2)
    · intro h x hx
      exact h x ((List.dropWhile_sublist isJsWhitespaceChar).mem (List.mem_reverse.mp hx))
  rw [List.any_eq_true]
  constructor
  · intro h
    by_contra hc
    push_neg at hc
    have hall : ∀ x ∈ l, isJsWhitespaceChar x = true := by
      intro x hx
      have := hc x hx
      simpa using this
    have := h1.mpr hall
    rw [this] at h
    simp at h
  · intro ⟨x, hx, hxw⟩
    rcases Nat.eq_zero_or_pos (trimJs l).length with h0 | h0
    · exfalso
      have hnil : trimJs l = [] := List.length_eq_zero.mp h0
      have := h1.mp hnil x hx
      simp [this] at hxw
    · exact h0


/-- Per-element well-formedness of the spans produced by the regex loop, in
clean-text coordinates: each span starts at or after the scan position, its
`stop` is `start + text.length`, it fits inside the scanned suffix, its text
is `@` plus one or more class characters, and the character of the scanned
suffix just past the span (if any) is not a word character (the `\b`
maximality of the source regex). -/
theorem scanCleanAux_mem :
    ∀ (fuel : Nat) (l : List Char) (i : Nat) (r : MentionRange),
      r ∈ scanCleanAux fuel l i →
      i ≤ r.start ∧ r.stop = r.start + r.text.length ∧ r.stop ≤ i + l.length ∧
      (∃ body, r.text = '@' :: body ∧ body ≠ [] ∧ body.all isMentionBodyChar = true) ∧
      (∀ c, l[r.stop - i]? = some c → isWordChar c = false) := by
  intro fuel
  induction fuel with
  | zero => intro l i r h; simp [scanCleanAux] at h
  | succ fuel ih =>
    intro l i r h
    match l with
    | [] => simp [scanCleanAux] at h
    | c :: rest =>
      simp only [scanCleanAux] at h
      by_cases hc : c = '@'
      · rw [if_pos hc] at h
        set run := rest.takeWhile isMentionBodyChar with hrun
        set body := dropTrailingNonWord run with hbody
        have hrun_le : run.length ≤ rest.length := by
          rw [hrun]
          exact (rest.takeWhile_sublist isMentionBodyChar).length_le
        obtain ⟨suffix, hsplit, hsuf⟩ := dropTrailingNonWord_spec run
        rw [← hbody] at hsplit
        have hlen_split : run.length = body.length + suffix.length := by
          rw [hsplit, List.length_append]
        by_cases hb : body = []
        · rw [if_pos hb] at h
          obtain ⟨h1, h2, h3, h4, h5⟩ := ih rest (i + 1) r h
          refine ⟨by omega, h2, by simp only [List.length_cons]; omega, h4, ?_⟩
          intro ch hch
          have hidx : r.stop - i = (r.stop - (i + 1)) + 1 := by omega
          rw [hidx, List.getElem?_cons_succ] at hch
          exact h5 ch hch
        · rw [if_neg hb] at h
          rcases List.mem_cons.mp h with hr | hr
          · subst hr
            refine ⟨le_refl i, by simp only [List.length_cons]; omega,
              by simp only [List.length_cons]; omega,
              ⟨body, rfl, hb, ?_⟩, ?_⟩
            · rw [List.all_eq_true]
              intro x hx
              have hxrun : x ∈ run := by
                rw [hsplit]
                exact List.mem_append.mpr (Or.inl hx)
              rw [hrun] at hxrun
              exact List.mem_takeWhile_imp hxrun
            · intro ch hch
              simp only at hch
              have hidx : i + 1 + body.length - i = body.length + 1 := by omega
              rw [hidx, List.getElem?_cons_succ] at hch
              cases suffix with
              | nil =>
                have hbl : body.length = run.length := by
                  simp at hlen_split; omega
                rw [hbl, hrun] at hch
                have hclass := takeWhile_boundary rest ch hch
                by_contra hw
                rw [Bool.not_eq_false] at hw
                rw [isMentionBodyChar_of_isWordChar hw] at hclass
                exact Bool.true_eq_false.mp hclass
              | cons s0 stail =>
                have hrest : rest = run ++ rest.dropWhile isMentionBodyChar := by
                  conv_lhs => rw [← List.takeWhile_append_dropWhile isMentionBodyChar rest]
                rw [hrest, List.getElem?_append] at hch
                rw [if_pos (by simp only [List.length_cons] at hlen_split ⊢; omega)] at hch
                rw [hsplit, List.getElem?_append] at hch
                rw [if_neg (by omega)] at hch
                simp only [Nat.sub_self, List.getElem?_cons_zero, Option.some.injEq] at hch
                rw [← hch]
                exact hsuf s0 (List.mem_cons_self s0 stail)
          · obtain ⟨h1, h2, h3, h4, h5⟩ := ih _ _ r hr
            rw [List.length_drop] at h3
            refine ⟨by omega, h2, by simp only [List.length_cons]; omega, h4, ?_⟩
            intro ch hch
            have hidx : r.stop - i = (r.stop - (i + 1)) + 1 := by omega
            rw [hidx, List.getElem?_cons_succ] at hch
            have hidx2 : r.stop - (i + 1) =
                body.length + (r.stop - (i + 1 + body.length)) := by omega
            rw [hidx2, ← List.getElem?_drop] at hch
            exact h5 ch hch
      · rw [if_neg hc] at h
        obtain ⟨h1, h2, h3, h4, h5⟩ := ih rest (i + 1) r h
        refine ⟨by omega, h2, by simp only [List.length_cons]; omega, h4, ?_⟩
        intro ch hch
        have hidx : r.stop - i = (r.stop - (i + 1)) + 1 := by omega
        rw [hidx, List.getElem?_cons_succ] at hch
        exact h5 ch hch

/-- Spans of the regex loop are chained: each ends at or before the next
begins (scanning resumes at `lastIndex` = previous match end). -/
theorem scanCleanAux_pairwise :
    ∀ (fuel : Nat) (l : List Char) (i : Nat),
      List.Pairwise (fun a b => a.stop ≤ b.start) (scanCleanAux fuel l i) := by
  intro fuel
  induction fuel with
  | zero => intro l i; simp [scanCleanAux]
  | succ fuel ih =>
    intro l i
    match l with
    | [] => simp [scanCleanAux]
    | c :: rest =>
      simp only [scanCleanAux]
      by_cases hc : c = '@'
      · rw [if_pos hc]
        by_cases hb : dropTrailingNonWord (rest.takeWhile isMentionBodyChar) = []
        · rw [if_pos hb]; exact ih rest (i + 1)
        · rw [if_neg hb]
          refine List.Pairwise.cons ?_ (ih _ _)
          intro b hb2
          exact (scanCleanAux_mem fuel _ _ b hb2).1
      · rw [if_neg hc]; exact ih rest (i + 1)

/-- Well-formedness of `getMentionRanges` spans: clean-coordinate origin,
offset mapping, grammar of the matched text, `\b` maximality, and bounds. -/
theorem getMentionRanges_mem (text : List Char) (r : MentionRange)
    (h : r ∈ getMentionRanges text) :
    ∃ s e, (⟨s, e, r.text⟩ : MentionRange) ∈ scanClean (cleanText text) 0 ∧
      r.start = mapCleanToOriginalPosition text s ∧
      r.stop = mapCleanToOriginalPosition text e ∧
      e = s + r.text.length ∧ e ≤ (cleanText text).length ∧
      (∃ body, r.text = '@' :: body ∧ body ≠ [] ∧ body.all isMentionBodyChar = true) ∧
      (∀ c, (cleanText text)[e]? = some c → isWordChar c = false) ∧
      r.start + r.text.length ≤ r.stop ∧ r.stop ≤ text.length := by
  unfold getMentionRanges at h
  by_cases ht : text = []
  · rw [if_pos ht] at h; simp at h
  · rw [if_neg ht] at h
    rcases List.mem_map.mp h with ⟨q, hq, hfq⟩
    obtain ⟨h1, h2, h3, h4, h5⟩ := scanCleanAux_mem _ _ _ q hq
    subst hfq
    refine ⟨q.start, q.stop, hq, rfl, rfl, h2, by omega, h4, ?_, ?_, ?_⟩
    · intro c hc
      apply h5 c
      have hz : q.stop - 0 = q.stop := by omega
      rw [hz]
      exact hc
    · have := mapClean_gap text q.start q.stop (by omega) (by omega)
      show mapCleanToOriginalPosition text q.start + q.text.length ≤
        mapCleanToOriginalPosition text q.stop
      omega
    · exact mapClean_le_length text q.stop

/-- The `getMentionRanges` spans are non-overlapping and strictly increasing in
`start`, in original-buffer coordinates. -/
theorem getMentionRanges_pairwise (text : List Char) :
    List.Pairwise (fun a b => a.stop ≤ b.start ∧ a.start < b.start)
      (getMentionRanges text) := by
  unfold getMentionRanges
  by_cases ht : text = []
  · rw [if_pos ht]; simp
  · rw [if_neg ht]
    rw [List.pairwise_map]
    have hpw := scanCleanAux_pairwise (cleanText text).length (cleanText text) 0
    refine List.Pairwise.imp_of_mem ?_ hpw
    intro a b ha hb hab
    obtain ⟨a1, a2, a3, a4, a5⟩ := scanCleanAux_mem _ _ _ a ha
    obtain ⟨b1, b2, b3, b4, b5⟩ := scanCleanAux_mem _ _ _ b hb
    have halen : 1 ≤ a.text.length := by
      obtain ⟨body, hbt, hbne, _⟩ := a4
      rw [hbt]
      simp [List.length_cons]
    have hg1 := mapClean_gap text a.start a.stop (by omega) (by omega)
    have hg2 := mapClean_gap text a.stop b.start hab (by omega)
    constructor
    · show mapCleanToOriginalPosition text a.stop ≤ mapCleanToOriginalPosition text b.start
      omega
    · show mapCleanToOriginalPosition text a.start < mapCleanToOriginalPosition text b.start
      omega

/-- Non-overlap only. -/
theorem getMentionRanges_chain (text : List Char) :
    List.Pairwise (fun a b => a.stop ≤ b.start) (getMentionRanges text) :=
  (getMentionRanges_pairwise text).imp (fun h => h.1)

/-- Every span is at least two characters long in original coordinates and
ends within the buffer. -/
theorem getMentionRanges_wf (text : List Char) :
    ∀ r ∈ getMentionRanges text, r.start + 2 ≤ r.stop ∧ r.stop ≤ text.length := by
  intro r hr
  obtain ⟨s, e, _, _, _, _, _, ⟨body, hbt, hbne, _⟩, _, h8, h9⟩ :=
    getMentionRanges_mem text r hr
  have h2 : 2 ≤ r.text.length := by
    rw [hbt]
    cases body with
    | nil => exact absurd rfl hbne
    | cons x xs => simp [List.length_cons]
  exact ⟨by omega, h9⟩

/-! ### Claim theorems -/

/-- C1: for every input string B, the span list returned by
`getMentionRanges(B)` consists of non-overlapping spans listed in strictly
increasing order of `start`, and every span satisfies
`0 ≤ start < end ≤ length(B)` — including when B contains zero-width marker
characters (U+200B/U+200C), which are stripped before matching and whose
offsets are mapped back to original-buffer coordinates.  (`0 ≤ start` is
implicit in the `Nat` offsets.) -/
theorem mention_ranges_sorted_bounded (text : List Char) :
    List.Pairwise (fun a b => a.stop ≤ b.start ∧ a.start < b.start)
      (getMentionRanges text) ∧
    ∀ r ∈ getMentionRanges text, r.start < r.stop ∧ r.stop ≤ text.length := by
  refine ⟨getMentionRanges_pairwise text, ?_⟩
  intro r hr
  have := getMentionRanges_wf text r hr
  omega

theorem mention_ranges_sorted_bounded_witness :
    (⟨1, 5, "@ab".toList⟩ : MentionRange) ∈
        getMentionRanges "x\u200B@ab\u200C y \u200B@cd".toList ∧
      ((⟨1, 5, "@ab".toList⟩ : MentionRange).start <
          (⟨1, 5, "@ab".toList⟩ : MentionRange).stop ∧
        (⟨1, 5, "@ab".toList⟩ : MentionRange).stop ≤
          ("x\u200B@ab\u200C y \u200B@cd".toList).length) :=
  ⟨by decide,
    (mention_ranges_sorted_bounded "x\u200B@ab\u200C y \u200B@cd".toList).2
      ⟨1, 5, "@ab".toList⟩ (by decide)⟩

/-- C2 counterexample: for B = `"@a."` the single reported span is
`{start:0, end:2, text:"@a"}`, yet the character `'.'` of the
(zero-width-stripped) buffer immediately after the span's end *is* a
character of the mention class `[a-zA-Z0-9.\-_]` — the claim that the
character after the span is never one the match could have absorbed
("extends until a character outside that class") is false as stated: the
regex's trailing `\b` trimmed it. -/
theorem mention_text_maximality_counterexample :
    getMentionRanges "@a.".toList = [⟨0, 2, "@a".toList⟩] ∧
      (cleanText "@a.".toList)[2]? = some '.' ∧ isMentionBodyChar '.' = true := by
  decide

/-- C2 amended: every span's text is the marker `'@'` followed by one or more
characters of the class `[a-zA-Z0-9.\-_]`, and the match is maximal in the
regex's `\b` sense: the clean-text character immediately after the span's
end, if any, is never a JS word character (`[a-zA-Z0-9_]`), i.e. never one
the match could have absorbed while still satisfying the trailing word
boundary.  (A trailing `'.'` or `'-'` may follow, as the counterexample
shows.) -/
theorem mention_text_grammar (text : List Char) (r : MentionRange)
    (h : r ∈ getMentionRanges text) :
    ∃ body s e, r.text = '@' :: body ∧ body ≠ [] ∧
      body.all isMentionBodyChar = true ∧
      (⟨s, e, r.text⟩ : MentionRange) ∈ scanClean (cleanText text) 0 ∧
      r.start = mapCleanToOriginalPosition text s ∧
      r.stop = mapCleanToOriginalPosition text e ∧
      e = s + r.text.length ∧
      (∀ c, (cleanText text)[e]? = some c → isWordChar c = false) := by
  obtain ⟨s, e, c1, c2, c3, c4, c5, ⟨body, b1, b2, b3⟩, c7, c8, c9⟩ :=
    getMentionRanges_mem text r h
  exact ⟨body, s, e, b1, b2, b3, c1, c2, c3, c4, c7⟩

theorem mention_text_grammar_witness :
    (⟨0, 4, "@a.b".toList⟩ : MentionRange) ∈ getMentionRanges "@a.b-".toList ∧
      (∃ body s e, (⟨0, 4, "@a.b".toList⟩ : MentionRange).text = '@' :: body ∧
        body ≠ [] ∧ body.all isMentionBodyChar = true ∧
        (⟨s, e, (⟨0, 4, "@a.b".toList⟩ : MentionRange).text⟩ : MentionRange) ∈
          scanClean (cleanText "@a.b-".toList) 0 ∧
        (⟨0, 4, "@a.b".toList⟩ : MentionRange).start =
          mapCleanToOriginalPosition "@a.b-".toList s ∧
        (⟨0, 4, "@a.b".toList⟩ : MentionRange).stop =
          mapCleanToOriginalPosition "@a.b-".toList e ∧
        e = s + (⟨0, 4, "@a.b".toList⟩ : MentionRange).text.length ∧
        (∀ c, (cleanText "@a.b-".toList)[e]? = some c → isWordChar c = false)) :=
  ⟨by decide, mention_text_grammar "@a.b-".toList ⟨0, 4, "@a.b".toList⟩ (by decide)⟩

/-- Loop lemma for C3: with Backspace and the cursor at `S.stop`, every range
listed before `S` fails all six interception conditions, and `S` itself
triggers whole-span deletion. -/
theorem handleMentionDeletionLoop_backspace_stop (text : List Char) (S : MentionRange) :
    ∀ ranges : List MentionRange, S ∈ ranges →
      (∀ r ∈ ranges, r.start + 2 ≤ r.stop) →
      List.Pairwise (fun a b => a.stop ≤ b.start) ranges →
      handleMentionDeletionLoop text S.stop .Backspace ranges =
        ⟨true, some S.start, some (text.take S.start ++ text.drop S.stop)⟩ := by
  intro ranges
  induction ranges with
  | nil => intro h _ _; simp at h
  | cons R rest ih =>
    intro hS hwf hpw
    rcases List.mem_cons.mp hS with hR | hS'
    · subst hR
      rw [handleMentionDeletionLoop, if_pos ⟨rfl, rfl⟩]
    · have hRS : R.stop ≤ S.start := (List.pairwise_cons.mp hpw).1 S hS'
      have hwfS : S.start + 2 ≤ S.stop := hwf S (List.mem_cons_of_mem R hS')
      have hwfR : R.start + 2 ≤ R.stop := hwf R (List.mem_cons_self R rest)
      rw [handleMentionDeletionLoop]
      rw [if_neg (by rintro ⟨-, h⟩; omega)]
      rw [if_neg (by rintro ⟨-, h1, h2, -⟩; omega)]
      rw [if_neg (by rintro ⟨-, h⟩; omega)]
      rw [if_neg (by rintro ⟨h, -⟩; exact DeletionKey.noConfusion h)]
      rw [if_neg (by rintro ⟨h, -⟩; exact DeletionKey.noConfusion h)]
      rw [if_neg (by rintro ⟨-, h1, h2⟩; omega)]
      exact ih hS' (fun r hr => hwf r (List.mem_cons_of_mem R hr))
        (List.pairwise_cons.mp hpw).2

/-- C3: for every buffer B and every mention span S of B,
`handleMentionDeletion(B, S.end, 'Backspace')` returns `shouldDelete: true`
with `newText` equal to B with the substring `[S.start, S.end)` removed and
`newPosition` equal to `S.start`. -/
theorem backspace_at_stop_deletes (text : List Char) (S : MentionRange)
    (h : S ∈ getMentionRanges text) :
    handleMentionDeletion text S.stop .Backspace =
      ⟨true, some S.start, some (text.take S.start ++ text.drop S.stop)⟩ := by
  have htext : text ≠ [] := by
    intro he
    subst he
    simp [getMentionRanges] at h
  unfold handleMentionDeletion
  rw [if_neg htext]
  exact handleMentionDeletionLoop_backspace_stop text S _ h
    (fun r hr => (getMentionRanges_wf text r hr).1) (getMentionRanges_chain text)

/-- Witness for C3, the spec's own scenario: B = `"hello @user-123 bye"`,
span {6, 15}, Backspace at 15 gives `"hello  bye"` and cursor 6. -/
theorem backspace_at_stop_deletes_witness :
    (⟨6, 15, "@user-123".toList⟩ : MentionRange) ∈
        getMentionRanges "hello @user-123 bye".toList ∧
      handleMentionDeletion "hello @user-123 bye".toList 15 DeletionKey.Backspace =
        ⟨true, some 6, some "hello  bye".toList⟩ :=
  ⟨by decide,
    (backspace_at_stop_deletes "hello @user-123 bye".toList
      ⟨6, 15, "@user-123".toList⟩ (by decide)).trans (by decide)⟩

/-- Loop lemma for C4: Delete with the cursor strictly inside `S`. -/
theorem handleMentionDeletionLoop_delete_inside (text : List Char) (S : MentionRange)
    (c : Nat) (hc1 : S.start < c) (hc2 : c < S.stop) :
    ∀ ranges : List MentionRange, S ∈ ranges →
      (∀ r ∈ ranges, r.start + 2 ≤ r.stop) →
      List.Pairwise (fun a b => a.stop ≤ b.start) ranges →
      handleMentionDeletionLoop text c .Delete ranges = ⟨false, some S.stop, none⟩ := by
  intro ranges
  induction ranges with
  | nil => intro h _ _; simp at h
  | cons R rest ih =>
    intro hS hwf hpw
    rcases List.mem_cons.mp hS with hR | hS'
    · subst hR
      rw [handleMentionDeletionLoop]
      rw [if_neg (by rintro ⟨h, -⟩; exact DeletionKey.noConfusion h)]
      rw [if_neg (by rintro ⟨h, -⟩; exact DeletionKey.noConfusion h)]
      rw [if_neg (by rintro ⟨h, -⟩; exact DeletionKey.noConfusion h)]
      rw [if_neg (by rintro ⟨-, h⟩; omega)]
      rw [if_pos ⟨rfl, by omega, hc2⟩]
    · have hRS : R.stop ≤ S.start := (List.pairwise_cons.mp hpw).1 S hS'
      have hwfR : R.start + 2 ≤ R.stop := hwf R (List.mem_cons_self R rest)
      rw [handleMentionDeletionLoop]
      rw [if_neg (by rintro ⟨h, -⟩; exact DeletionKey.noConfusion h)]
      rw [if_neg (by rintro ⟨h, -⟩; exact DeletionKey.noConfusion h)]
      rw [if_neg (by rintro ⟨h, -⟩; exact DeletionKey.noConfusion h)]
      rw [if_neg (by rintro ⟨-, h⟩; omega)]
      rw [if_neg (by rintro ⟨-, h1, h2⟩; omega)]
      rw [if_neg (by rintro ⟨h, -⟩; exact DeletionKey.noConfusion h)]
      exact ih hS' (fun r hr => hwf r (List.mem_cons_of_mem R hr))
        (List.pairwise_cons.mp hpw).2

/-- C4: for every buffer B, mention span S of B, and cursor c strictly inside
S (`S.start < c < S.end`), `handleMentionDeletion(B, c, 'Delete')` is a no-op
cursor move: `shouldDelete: false`, `newPosition = S.end`, no `newText`. -/
theorem delete_inside_is_noop_move (text : List Char) (S : MentionRange) (c : Nat)
    (h : S ∈ getMentionRanges text) (hc1 : S.start < c) (hc2 : c < S.stop) :
    handleMentionDeletion text c .Delete = ⟨false, some S.stop, none⟩ := by
  have htext : text ≠ [] := by
    intro he
    subst he
    simp [getMentionRanges] at h
  unfold handleMentionDeletion
  rw [if_neg htext]
  exact handleMentionDeletionLoop_delete_inside text S c hc1 hc2 _ h
    (fun r hr => (getMentionRanges_wf text r hr).1) (getMentionRanges_chain text)

theorem delete_inside_is_noop_move_witness :
    (⟨2, 5, "@bc".toList⟩ : MentionRange) ∈ getMentionRanges "a @bc d".toList ∧
      handleMentionDeletion "a @bc d".toList 3 DeletionKey.Delete =
        ⟨false, some 5, none⟩ :=
  ⟨by decide,
    delete_inside_is_noop_move "a @bc d".toList ⟨2, 5, "@bc".toList⟩ 3
      (by decide) (by decide) (by decide)⟩

/-- Loop lemma for C8: Backspace one position past a span whose following
character is a space. -/
theorem handleMentionDeletionLoop_backspace_space (text : List Char) (S : MentionRange)
    (hsp : text[S.stop]? = some ' ') :
    ∀ ranges : List MentionRange, S ∈ ranges →
      (∀ r ∈ ranges, r.start + 2 ≤ r.stop) →
      List.Pairwise (fun a b => a.stop ≤ b.start) ranges →
      handleMentionDeletionLoop text (S.stop + 1) .Backspace ranges =
        if 0 < (trimJs (text.drop (S.stop + 1))).length then
          ⟨false, some (S.stop + 1), none⟩
        else
          ⟨true, some S.stop, some (text.take S.stop ++ text.drop (S.stop + 1))⟩ := by
  intro ranges
  induction ranges with
  | nil => intro h _ _; simp at h
  | cons R rest ih =>
    intro hS hwf hpw
    rcases List.mem_cons.mp hS with hR | hS'
    · subst hR
      rw [handleMentionDeletionLoop]
      rw [if_neg (by rintro ⟨-, h⟩; omega)]
      rw [if_pos ⟨rfl, by omega, by omega, hsp⟩]
    · have hRS : R.stop ≤ S.start := (List.pairwise_cons.mp hpw).1 S hS'
      have hwfS : S.start + 2 ≤ S.stop := hwf S (List.mem_cons_of_mem R hS')
      have hwfR : R.start + 2 ≤ R.stop := hwf R (List.mem_cons_self R rest)
      rw [handleMentionDeletionLoop]
      rw [if_neg (by rintro ⟨-, h⟩; omega)]
      rw [if_neg (by rintro ⟨-, h1, h2, -⟩; omega)]
      rw [if_neg (by rintro ⟨-, h⟩; omega)]
      rw [if_neg (by rintro ⟨h, -⟩; exact DeletionKey.noConfusion h)]
      rw [if_neg (by rintro ⟨h, -⟩; exact DeletionKey.noConfusion h)]
      rw [if_neg (by rintro ⟨-, h1, h2⟩; omega)]
      exact ih hS' (fun r hr => hwf r (List.mem_cons_of_mem R hr))
        (List.pairwise_cons.mp hpw).2

/-- C8: Backspace with the cursor exactly one position past `S.end`, where
the character at `S.end` is a space: if any non-whitespace content follows
that space, the deletion is suppressed entirely (no text change, cursor
unchanged); otherwise exactly that space is deleted and the cursor lands at
`S.end`. -/
theorem backspace_after_mention_space (text : List Char) (S : MentionRange)
    (h : S ∈ getMentionRanges text) (hsp : text[S.stop]? = some ' ') :
    handleMentionDeletion text (S.stop + 1) .Backspace =
      if ((text.drop (S.stop + 1)).any fun ch => !isJsWhitespaceChar ch) then
        ⟨false, some (S.stop + 1), none⟩
      else
        ⟨true, some S.stop, some (text.take S.stop ++ text.drop (S.stop + 1))⟩ := by
  have htext : text ≠ [] := by
    intro he
    subst he
    simp [getMentionRanges] at h
  unfold handleMentionDeletion
  rw [if_neg htext]
  rw [handleMentionDeletionLoop_backspace_space text S hsp _ h
    (fun r hr => (getMentionRanges_wf text r hr).1) (getMentionRanges_chain text)]
  by_cases hany : ((text.drop (S.stop + 1)).any fun ch => !isJsWhitespaceChar ch) = true
  · rw [if_pos ((trimJs_length_pos_iff _).mpr hany), if_pos hany]
  · rw [if_neg (fun hp => hany ((trimJs_length_pos_iff _).mp hp)),
      if_neg (by simpa using hany)]

theorem backspace_after_mention_space_witness :
    ((⟨3, 7, "@bob".toList⟩ : MentionRange) ∈ getMentionRanges "hi @bob x".toList ∧
      handleMentionDeletion "hi @bob x".toList 8 DeletionKey.Backspace =
        ⟨false, some 8, none⟩) ∧
    ((⟨3, 7, "@bob".toList⟩ : MentionRange) ∈ getMentionRanges "hi @bob ".toList ∧
      handleMentionDeletion "hi @bob ".toList 8 DeletionKey.Backspace =
        ⟨true, some 7, some "hi @bob".toList⟩) :=
  ⟨⟨by decide,
    (backspace_after_mention_space "hi @bob x".toList ⟨3, 7, "@bob".toList⟩
      (by decide) (by decide)).trans (by decide)⟩,
   ⟨by decide,
    (backspace_after_mention_space "hi @bob ".toList ⟨3, 7, "@bob".toList⟩
      (by decide) (by decide)).trans (by decide)⟩⟩

/-- Loop lemma for C9, hit case: some listed range ends exactly at the
cursor.  The spliced result depends only on the cursor, so any such range
gives the same output. -/
theorem preventMentionExpansionLoop_hit (text : List Char) (c : Nat) (ch : List Char) :
    ∀ ranges : List MentionRange, (∃ S ∈ ranges, c = S.stop) →
      preventMentionExpansionLoop text c ch ranges =
        (text.take c ++ ' ' :: ch ++ text.drop c, c + 2) := by
  intro ranges
  induction ranges with
  | nil => rintro ⟨S, hS, -⟩; simp at hS
  | cons R rest ih =>
    rintro ⟨S, hS, hc⟩
    rw [preventMentionExpansionLoop]
    by_cases hR : c = R.stop
    · rw [if_pos hR]
    · rw [if_neg hR]
      rcases List.mem_cons.mp hS with hSR | hS'
      · exact absurd (hSR ▸ hc) hR
      · exact ih ⟨S, hS', hc⟩

/-- Loop lemma for C9, miss case: no listed range ends at the cursor. -/
theorem preventMentionExpansionLoop_miss (text : List Char) (c : Nat) (ch : List Char) :
    ∀ ranges : List MentionRange, (∀ r ∈ ranges, c ≠ r.stop) →
      preventMentionExpansionLoop text c ch ranges = (text, c) := by
  intro ranges
  induction ranges with
  | nil => intro _; rw [preventMentionExpansionLoop]
  | cons R rest ih =>
    intro hnone
    rw [preventMentionExpansionLoop,
      if_neg (hnone R (List.mem_cons_self R rest))]
    exact ih (fun r hr => hnone r (List.mem_cons_of_mem R hr))

/-- C9: if the cursor sits exactly at a mention span's end and a non-empty
character is typed, `preventMentionExpansion` returns the buffer with a plain
space followed by that character spliced in at the cursor and the cursor
advanced by two; if the cursor is at no span's end, buffer and cursor are
returned unchanged. -/
theorem prevent_expansion_spec (text : List Char) (c : Nat) (ch : List Char) :
    (∀ S ∈ getMentionRanges text, c = S.stop → ch ≠ [] →
      preventMentionExpansion text c ch =
        (text.take c ++ ' ' :: ch ++ text.drop c, c + 2)) ∧
    ((∀ r ∈ getMentionRanges text, c ≠ r.stop) →
      preventMentionExpansion text c ch = (text, c)) := by
  constructor
  · intro S hS hc hch
    have htext : text ≠ [] := by
      intro he
      subst he
      simp [getMentionRanges] at hS
    unfold preventMentionExpansion
    rw [if_neg (by rintro (h | h) <;> contradiction)]
    exact preventMentionExpansionLoop_hit text c ch _ ⟨S, hS, hc⟩
  · intro hnone
    unfold preventMentionExpansion
    by_cases hg : text = [] ∨ ch = []
    · rw [if_pos hg]
    · rw [if_neg hg]
      exact preventMentionExpansionLoop_miss text c ch _ hnone

/-- Witness for C9, the spec's own scenario:
`preventExpansion("hi @bob", 7, "x") = {buffer: "hi @bob x", cursor: 9}`,
plus the unchanged case at a non-end cursor. -/
theorem prevent_expansion_spec_witness :
    ((⟨3, 7, "@bob".toList⟩ : MentionRange) ∈ getMentionRanges "hi @bob".toList ∧
      preventMentionExpansion "hi @bob".toList 7 "x".toList =
        ("hi @bob x".toList, 9)) ∧
      preventMentionExpansion "hi @bob".toList 5 "x".toList = ("hi @bob".toList, 5) :=
  ⟨⟨by decide,
    ((prevent_expansion_spec "hi @bob".toList 7 "x".toList).1
      ⟨3, 7, "@bob".toList⟩ (by decide) (by decide) (by decide)).trans (by decide)⟩,
   (prevent_expansion_spec "hi @bob".toList 5 "x".toList).2 (by decide)⟩

/-- Loop lemma for C10: the loop either returns the target (and then no
listed range contains it) or the `stop` of some containing range. -/
theorem getSafeCursorPositionLoop_cases (t : Nat) :
    ∀ ranges : List MentionRange,
      (getSafeCursorPositionLoop t ranges = t ∧
        ∀ r ∈ ranges, ¬(r.start ≤ t ∧ t < r.stop)) ∨
      (∃ r ∈ ranges, getSafeCursorPositionLoop t ranges = r.stop ∧
        r.start ≤ t ∧ t < r.stop) := by
  intro ranges
  induction ranges with
  | nil => left; exact ⟨rfl, by simp⟩
  | cons R rest ih =>
    rw [getSafeCursorPositionLoop]
    by_cases hR : R.start ≤ t ∧ t < R.stop
    · right
      exact ⟨R, List.mem_cons_self R rest, if_pos hR, hR⟩
    · rw [if_neg hR]
      rcases ih with ⟨h1, h2⟩ | ⟨r, hr, h1, h2⟩
      · left
        refine ⟨h1, ?_⟩
        intro r hr
        rcases List.mem_cons.mp hr with hrR | hr'
        · subst hrR; exact hR
        · exact h2 r hr'
      · right
        exact ⟨r, List.mem_cons_of_mem R hr, h1, h2⟩

/-- Loop lemma for C10, hit case: if the (pairwise-chained) list contains a
range holding the target, the loop returns that range's `stop`. -/
theorem getSafeCursorPositionLoop_hit (t : Nat) (S : MentionRange) :
    ∀ ranges : List MentionRange, S ∈ ranges → S.start ≤ t → t < S.stop →
      List.Pairwise (fun a b => a.stop ≤ b.start) ranges →
      getSafeCursorPositionLoop t ranges = S.stop := by
  intro ranges
  induction ranges with
  | nil => intro h; simp at h
  | cons R rest ih =>
    intro hS h1 h2 hpw
    rcases List.mem_cons.mp hS with hSR | hS'
    · subst hSR
      rw [getSafeCursorPositionLoop, if_pos ⟨h1, h2⟩]
    · have hRS : R.stop ≤ S.start := (List.pairwise_cons.mp hpw).1 S hS'
      rw [getSafeCursorPositionLoop, if_neg (by rintro ⟨-, h⟩; omega)]
      exact ih hS' h1 h2 (List.pairwise_cons.mp hpw).2

/-- Loop lemma for C10, miss case. -/
theorem getSafeCursorPositionLoop_miss (t : Nat) :
    ∀ ranges : List MentionRange, (∀ r ∈ ranges, ¬(r.start ≤ t ∧ t < r.stop)) →
      getSafeCursorPositionLoop t ranges = t := by
  intro ranges
  induction ranges with
  | nil => intro _; rw [getSafeCursorPositionLoop]
  | cons R rest ih =>
    intro hnone
    rw [getSafeCursorPositionLoop, if_neg (hnone R (List.mem_cons_self R rest))]
    exact ih (fun r hr => hnone r (List.mem_cons_of_mem R hr))

/-- C10: for non-empty text and target ≥ 0, `getSafeCursorPosition` returns a
position p with `0 ≤ p ≤ length(text)` (the lower bound is implicit in
`Nat`), never strictly inside any mention span; if the target falls within
`[start, end)` of a span, p is that span's end; otherwise p is the target
clamped to the text length. -/
theorem safe_cursor_position_spec (text : List Char) (t : Nat) (hne : text ≠ []) :
    getSafeCursorPosition text t ≤ text.length ∧
    (∀ r ∈ getMentionRanges text,
      ¬(r.start < getSafeCursorPosition text t ∧
        getSafeCursorPosition text t < r.stop)) ∧
    (∀ S ∈ getMentionRanges text, S.start ≤ t → t < S.stop →
      getSafeCursorPosition text t = S.stop) ∧
    ((∀ r ∈ getMentionRanges text, ¬(r.start ≤ t ∧ t < r.stop)) →
      getSafeCursorPosition text t = min t text.length) := by
  have hwf := getMentionRanges_wf text
  have hchain := getMentionRanges_chain text
  have hboth : ∀ a ∈ getMentionRanges text, ∀ b ∈ getMentionRanges text, a ≠ b →
      a.stop ≤ b.start ∨ b.stop ≤ a.start := by
    intro a ha b hb hab
    have hsym : Symmetric (fun x y : MentionRange =>
        x.stop ≤ y.start ∨ y.stop ≤ x.start) := fun x y h => h.symm
    exact List.Pairwise.forall hsym (hchain.imp (fun h => Or.inl h)) ha hb hab
  unfold getSafeCursorPosition
  rw [if_neg hne]
  refine ⟨by omega, ?_, ?_, ?_⟩
  · intro r hr hcontra
    obtain ⟨h1, h2⟩ := hcontra
    rcases getSafeCursorPositionLoop_cases t (getMentionRanges text) with
      ⟨hqt, hnone⟩ | ⟨r0, hr0, hq0, hc1, hc2⟩
    · rw [hqt] at h1 h2
      have := hnone r hr
      have := hwf r hr
      omega
    · rw [hq0] at h1 h2
      by_cases hrr : r = r0
      · subst hrr
        have := hwf r hr
        omega
      · have := hboth r hr r0 hr0 hrr
        have := hwf r hr
        have := hwf r0 hr0
        omega
  · intro S hS h1 h2
    rw [getSafeCursorPositionLoop_hit t S _ hS h1 h2 hchain]
    have := hwf S hS
    omega
  · intro hnone
    rw [getSafeCursorPositionLoop_miss t _ hnone]
    omega

theorem safe_cursor_position_spec_witness :
    ((⟨2, 5, "@bc".toList⟩ : MentionRange) ∈ getMentionRanges "a @bc d".toList ∧
      getSafeCursorPosition "a @bc d".toList 3 = 5) ∧
      getSafeCursorPosition "a @bc d".toList 9 = 7 :=
  ⟨⟨by decide,
    (safe_cursor_position_spec "a @bc d".toList 3 (by decide)).2.2.1
      ⟨2, 5, "@bc".toList⟩ (by decide) (by decide) (by decide)⟩,
   ((safe_cursor_position_spec "a @bc d".toList 9 (by decide)).2.2.2
      (by decide)).trans (by decide)⟩

/-- C5 (code bug): given previous buffer `"@al"` and current `"@alice2"`,
`detectAndFixMentionExpansion` does splice the three zero-width markers after
the old boundary, but re-scanning the "corrected" buffer does *not* yield a
span with text `"@al"`: `getMentionRanges` strips U+200B/U+200C before
matching, so the re-scan reports the whole `"@alice2"` again, as the single
span `{start:0, end:10}`.  The markers inserted to "separate" the expanded
part are exactly the characters the scanner deletes, so the fix is invisible
to the next scan, contradicting the function's stated purpose. -/
theorem detect_and_fix_expansion_bug :
    detectAndFixMentionExpansion "@alice2".toList (some "@al".toList) =
        "@al".toList ++ expansionSeparators ++ "ice2".toList ∧
      getMentionRanges ("@al".toList ++ expansionSeparators ++ "ice2".toList) =
        [⟨0, 10, "@alice2".toList⟩] := by
  decide

/-- C6 counterexample: for B = `"@ab"` (one span {0,3}) an ArrowRight at
cursor 0 is NOT intercepted (`willInvade: false`), contradicting the claimed
atomic skip to 3: the code requires `currentPosition < range.start`, which
fails when the cursor already sits at the span's start, so the default caret
move lands at position 1, strictly inside the mention. -/
theorem arrow_right_skip_counterexample :
    getMentionRanges "@ab".toList = [⟨0, 3, "@ab".toList⟩] ∧
      willInvadeMentionArea "@ab".toList 0 "ArrowRight" false false =
        ⟨false, none⟩ := by
  decide

/-- Loop lemma for C6: with ArrowRight and `nextPosition = current + 1`, the
interception condition `current < start ∧ next ≥ start` holds exactly when
`start = current + 1`. -/
theorem willInvadeArrowLoop_arrowRight (current : Nat) :
    ∀ ranges : List MentionRange,
      willInvadeArrowLoop current "ArrowRight" ((current : Int) + 1) ranges =
        match ranges.find? (fun r => r.start == current + 1) with
        | some r => ⟨true, some r.stop⟩
        | none => ⟨false, none⟩ := by
  intro ranges
  induction ranges with
  | nil => rw [willInvadeArrowLoop]; rfl
  | cons R rest ih =>
    rw [willInvadeArrowLoop, List.find?_cons]
    by_cases hR : R.start = current + 1
    · have hbeq : (R.start == current + 1) = true := by simp [hR]
      rw [if_pos ⟨rfl, by omega, by omega⟩, hbeq]
    · have hbeq : (R.start == current + 1) = false := by simp [hR]
      rw [hbeq]
      rw [if_neg (by rintro ⟨-, h1, h2⟩; exact hR (by omega))]
      rw [if_neg (by rintro ⟨h, -⟩; exact absurd h (by decide))]
      rw [if_neg (by rintro ⟨h, -⟩; exact absurd h (by decide))]
      rw [if_neg (by rintro ⟨h, -⟩; exact absurd h (by decide))]
      exact ih

/-- C6 amended: an ArrowRight is intercepted precisely when the cursor sits
immediately left of a span's start (so the default move would land exactly at
`span.start`), and it is then redirected to that span's end in one step; a
cursor already at (or inside) a span moving right is not intercepted — in
`"@ab"` an ArrowRight at cursor 0 moves to 1. -/
theorem arrow_right_redirect_spec (text : List Char) (current : Nat)
    (ctrlKey metaKey : Bool) :
    willInvadeMentionArea text current "ArrowRight" ctrlKey metaKey =
      match (getMentionRanges text).find? (fun r => r.start == current + 1) with
      | some r => ⟨true, some r.stop⟩
      | none => ⟨false, none⟩ := by
  simp only [willInvadeMentionArea]
  by_cases ht : text = []
  · rw [if_pos ht]
    subst ht
    rfl
  · rw [if_neg ht]
    by_cases hranges : getMentionRanges text = []
    · rw [if_pos hranges, hranges]
      rfl
    · rw [if_neg hranges]
      rw [if_neg (by rintro (h | ⟨h, -⟩) <;> exact absurd h (by decide))]
      rw [if_pos (Or.inr trivial)]
      rw [if_neg (by decide : ¬("ArrowRight" = "ArrowLeft"))]
      exact willInvadeArrowLoop_arrowRight current (getMentionRanges text)

/-- C7 counterexample: for B = `"ab @cd"` with its only span at [3,6) and the
cursor at 1, no mention span lies between position 0 and the cursor, yet
Home IS intercepted, with safe position 6 — the code's Home branch tests
`0 < range.end` (always true) and never consults the cursor, so it jumps
the caret *forward* past a mention that lies beyond it. -/
theorem home_key_counterexample :
    getMentionRanges "ab @cd".toList = [⟨3, 6, "@cd".toList⟩] ∧
      willInvadeMentionArea "ab @cd".toList 1 "Home" false false =
        ⟨true, some 6⟩ := by
  decide

/-- Shared computation for the Home / Ctrl-Left / Cmd-Left branch. -/
theorem home_navigation_eq (text : List Char) (current : Nat) (key : String)
    (ctrlKey metaKey : Bool)
    (hkey : key = "Home" ∨ (key = "ArrowLeft" ∧ (ctrlKey = true ∨ metaKey = true))) :
    willInvadeMentionArea text current key ctrlKey metaKey =
      match getMentionRanges text with
      | [] => ⟨false, none⟩
      | r :: _ => ⟨true, some r.stop⟩ := by
  simp only [willInvadeMentionArea]
  by_cases ht : text = []
  · rw [if_pos ht]
    subst ht
    rfl
  · rw [if_neg ht]
    cases hranges : getMentionRanges text with
    | nil => rw [if_pos rfl]
    | cons R rest =>
      rw [if_neg (by simp)]
      rw [if_pos hkey]
      have hwfR : R.start + 2 ≤ R.stop :=
        (getMentionRanges_wf text R (by rw [hranges]; exact List.mem_cons_self R rest)).1
      rw [willInvadeHomeLoop, if_pos (by omega)]

/-- C7 amended: a Home key (or Ctrl/Meta+ArrowLeft) is intercepted iff the
buffer contains at least one mention span — regardless of where the cursor
is or whether any span lies between 0 and it — and the returned safe
position is then the *first* span's end. -/
theorem home_key_spec (text : List Char) (current : Nat) (ctrlKey metaKey : Bool) :
    (willInvadeMentionArea text current "Home" ctrlKey metaKey =
      match getMentionRanges text with
      | [] => ⟨false, none⟩
      | r :: _ => ⟨true, some r.stop⟩) ∧
    (willInvadeMentionArea text current "ArrowLeft" true metaKey =
      match getMentionRanges text with
      | [] => ⟨false, none⟩
      | r :: _ => ⟨true, some r.stop⟩) ∧
    (willInvadeMentionArea text current "ArrowLeft" ctrlKey true =
      match getMentionRanges text with
      | [] => ⟨false, none⟩
      | r :: _ => ⟨true, some r.stop⟩) :=
  ⟨home_navigation_eq text current "Home" ctrlKey metaKey (Or.inl rfl),
   home_navigation_eq text current "ArrowLeft" true metaKey
     (Or.inr ⟨rfl, Or.inl rfl⟩),
   home_navigation_eq text current "ArrowLeft" ctrlKey true
     (Or.inr ⟨rfl, Or.inr rfl⟩)⟩
